import Mathlib

/-!
Verification of the 2048 board model and expectimax search engine
(`src/board.rs`, `src/search.rs`).

The board is a 4×4 grid of tile exponents (0 = empty, k > 0 = tile 2^k),
embedded here as a structure of four rows of four natural-number cells.
Scores (Rust `f32`) are modelled as exact rationals `ℚ`; the heuristic
`eval.rs` is not part of the sources and, per its contract, is treated as
an opaque parameter `ev : Board → ℚ`.
-/

/-- One row of the 4×4 grid (`[u8; N]` with `N = 4` in `src/board.rs`). -/
structure Row where
  c0 : ℕ
  c1 : ℕ
  c2 : ℕ
  c3 : ℕ
deriving DecidableEq, Repr

/-- The board: an N×N matrix of tile codes (`Board` in `src/board.rs`). -/
structure Board where
  r0 : Row
  r1 : Row
  r2 : Row
  r3 : Row
deriving DecidableEq, Repr

/-- The four directional actions (the source's `Action` enum in
`src/board.rs`; named `Act` here because Mathlib already declares `Action`). -/
inductive Act where
  | Up
  | Down
  | Left
  | Right
deriving DecidableEq, Repr

/-- Canonical enumeration order of actions (`ALL_ACTIONS` in `src/board.rs`). -/
def ALL_ACTIONS : List Act := [Act.Up, Act.Down, Act.Left, Act.Right]

/-- The cells of a row, left to right. -/
def Row.toList (r : Row) : List ℕ := [r.c0, r.c1, r.c2, r.c3]

/-- Rebuilds a row from a list of at most four cells, filling the remaining
cells with zero — this models the `row[write_index..].fill(0)` step of
`push_left` in `src/board.rs`. -/
def Row.ofList (l : List ℕ) : Row :=
  ⟨l.getD 0 0, l.getD 1 0, l.getD 2 0, l.getD 3 0⟩

/-- Core single-row merge loop of `push_left` in `src/board.rs`, expressed on
the list of cells: zeros are skipped, a non-zero cell merges with the next
non-zero cell when they are equal (zeros in between are consumed, matching the
inner `while read_index < N && row[read_index] == 0` skip), and a merged cell
is never reconsidered in the same pass. -/
def pushLeftAux : List ℕ → List ℕ
  | [] => []
  | 0 :: rest => pushLeftAux rest
  | [v+1] => [v+1]
  | (v+1) :: 0 :: rest => pushLeftAux ((v+1) :: rest)
  | (v+1) :: (w+1) :: rest =>
      if w = v then (v+2) :: pushLeftAux rest
      else (v+1) :: pushLeftAux ((w+1) :: rest)
termination_by l => l.length
decreasing_by all_goals simp_arith

/-- The `push_left` row operation of `src/board.rs`. -/
def pushRow (r : Row) : Row := Row.ofList (pushLeftAux r.toList)

/-- Applies `push_left` on all rows (`Board::push_left` in `src/board.rs`). -/
def Board.pushLeftB (b : Board) : Board :=
  ⟨pushRow b.r0, pushRow b.r1, pushRow b.r2, pushRow b.r3⟩

/-- Reversal of one row: the in-place two-pointer swap loop of
`Board::swap_lr` reverses each row for N = 4 (swaps indices 0↔3 and 1↔2). -/
def Row.rev (r : Row) : Row := ⟨r.c3, r.c2, r.c1, r.c0⟩

/-- Mirrors the board left/right (`Board::swap_lr` in `src/board.rs`). -/
def Board.swapLR (b : Board) : Board :=
  ⟨b.r0.rev, b.r1.rev, b.r2.rev, b.r3.rev⟩

/-- Transposes the board (`Board::transpose` in `src/board.rs`: swaps
`cells[i][j]` with `cells[j][i]`). -/
def Board.transpose (b : Board) : Board :=
  ⟨⟨b.r0.c0, b.r1.c0, b.r2.c0, b.r3.c0⟩,
   ⟨b.r0.c1, b.r1.c1, b.r2.c1, b.r3.c1⟩,
   ⟨b.r0.c2, b.r1.c2, b.r2.c2, b.r3.c2⟩,
   ⟨b.r0.c3, b.r1.c3, b.r2.c3, b.r3.c3⟩⟩

/-- The candidate next board computed by `Board::apply` in `src/board.rs`
before the change check: `push_left` conjugated by the directional symmetry
transforms (transpose for vertical moves, left/right swap for `Right`). -/
def Board.moveResult (b : Board) : Act → Board
  | Act.Left => b.pushLeftB
  | Act.Up => b.transpose.pushLeftB.transpose
  | Act.Down => b.transpose.swapLR.pushLeftB.swapLR.transpose
  | Act.Right => b.swapLR.pushLeftB.swapLR

/-- The move application of `Board::apply` in `src/board.rs`: the transformed
board if the move changed anything, absence otherwise. -/
def Board.apply (b : Board) (a : Act) : Option Board :=
  if b ≠ b.moveResult a then some (b.moveResult a) else none

/-- All sixteen cells of the board, row-major
(`cells.iter().flatten()` order in `src/board.rs`). -/
def Board.cellsList (b : Board) : List ℕ :=
  b.r0.toList ++ b.r1.toList ++ b.r2.toList ++ b.r3.toList

/-- Number of empty cells (`Board::num_empty` in `src/board.rs`). -/
def Board.numEmpty (b : Board) : ℕ := b.cellsList.count 0

/-- Cell access by column index, as `row[j]` in `src/board.rs`. -/
def Row.get (r : Row) : ℕ → ℕ
  | 0 => r.c0
  | 1 => r.c1
  | 2 => r.c2
  | _ => r.c3

/-- Writes a cell by column index. -/
def Row.set (r : Row) (j v : ℕ) : Row :=
  match j with
  | 0 => { r with c0 := v }
  | 1 => { r with c1 := v }
  | 2 => { r with c2 := v }
  | _ => { r with c3 := v }

/-- Row access by row index, as `cells[i]` in `src/board.rs`. -/
def Board.row (b : Board) : ℕ → Row
  | 0 => b.r0
  | 1 => b.r1
  | 2 => b.r2
  | _ => b.r3

/-- Writes one cell of the board (`next.cells[i][j] = new_value` in
`Board::random_successors`). -/
def Board.setCell (b : Board) (i j v : ℕ) : Board :=
  match i with
  | 0 => { b with r0 := b.r0.set j v }
  | 1 => { b with r1 := b.r1.set j v }
  | 2 => { b with r2 := b.r2.set j v }
  | _ => { b with r3 := b.r3.set j v }

/-- Coordinates of the empty cells in row-major order — the `empty_cells`
iterator of `Board::random_successors` in `src/board.rs`. -/
def Board.emptyCells (b : Board) : List (ℕ × ℕ) :=
  (List.range 4).flatMap fun i =>
    ((List.range 4).filter fun j => (b.row i).get j == 0).map fun j => (i, j)

/-- Weighted spawn enumeration of `Board::random_successors` in
`src/board.rs`: for each empty cell, exponent 1 with mass `0.9 / n` and
exponent 2 with mass `0.1 / n`, where `n` is the number of empty cells. -/
def Board.randomSuccessors (b : Board) : List (ℚ × Board) :=
  let n : ℚ := (b.numEmpty : ℚ)
  b.emptyCells.flatMap fun ij =>
    [(9 / 10 / n, b.setCell ij.1 ij.2 1), (1 / 10 / n, b.setCell ij.1 ij.2 2)]

/-!
Search engine (`src/search.rs`). The memo table `HashMap<RandableBoard,
(f32, usize)>` is modelled as an association list in which insertion
prepends, so that a fresh entry shadows any previous one, matching
`HashMap::insert` under lookup. The `Stats` counter of the source carries no
semantics ("it must not affect search results") and is omitted.
-/

/-- The memoization table of `select_action_expectimax`: chance-state board to
(stored value, stored remaining depth). -/
def Cache : Type := List (Board × (ℚ × ℕ))

/-- Lookup in the memo table, `cache.contains_key` plus `cache[&board]`. -/
def cLookup : Cache → Board → Option (ℚ × ℕ)
  | [], _ => none
  | (b', v) :: rest, b => if b' = b then some v else cLookup rest b

/-- Insertion into the memo table, `cache.insert(board, ..)`; the new entry
shadows any previous entry for the same board. -/
def cInsert (b : Board) (v : ℚ × ℕ) (c : Cache) : Cache := (b, v) :: c

mutual

/-- The chance-node evaluator `evaluate_randable` of `src/search.rs`: answers
from the cache when the stored remaining depth matches exactly, otherwise
falls through to `evalRandableMiss`. -/
def evalRandable (ev : Board → ℚ) (b : Board) (d : ℕ) (c : Cache) : ℚ × Cache :=
  match cLookup c b with
  | some (v, e) => if e = d then (v, c) else evalRandableMiss ev b d c
  | none => evalRandableMiss ev b d c
termination_by (d, 4, 0)

/-- The cache-miss path of `evaluate_randable`: the heuristic at depth 0,
otherwise the probability-weighted sum over `successors`, inserting the
running `sum` into the cache after every successor. -/
def evalRandableMiss (ev : Board → ℚ) (b : Board) (d : ℕ) (c : Cache) : ℚ × Cache :=
  match d with
  | 0 => (ev b, c)
  | e + 1 => evalRandableLoop ev b (e + 1) b.randomSuccessors 0 c
termination_by (d, 3, 0)

/-- The `for (proba, succ) in board.successors()` loop of `evaluate_randable`:
`sum = sum + proba * evaluate_playable(succ, remaining_actions, ..)` followed
by `cache.insert(board, (sum, remaining_actions))`. -/
def evalRandableLoop (ev : Board → ℚ) (b : Board) (d : ℕ)
    (succs : List (ℚ × Board)) (sum : ℚ) (c : Cache) : ℚ × Cache :=
  match succs with
  | [] => (sum, c)
  | (p, s) :: rest =>
      let r := evalPlayable ev s d c
      evalRandableLoop ev b d rest (sum + p * r.1) (cInsert b (sum + p * r.1, d) r.2)
termination_by (d, 2, succs.length)

/-- The decision-node evaluator `evaluate_playable` of `src/search.rs`.
With `remaining_actions = 0` the Rust subtraction `remaining_actions - 1`
underflows (see the checked model below); that case is unreachable because
`evaluate_randable` only calls this function with a positive depth. -/
def evalPlayable (ev : Board → ℚ) (b : Board) (d : ℕ) (c : Cache) : ℚ × Cache :=
  match d with
  | 0 => (0, c)
  | e + 1 => evalPlayableLoop ev b e ALL_ACTIONS 0 c
termination_by (d, 1, 0)

/-- The `for action in ALL_ACTIONS` loop of `evaluate_playable`: skip
inapplicable actions, evaluate applicable ones at `remaining_actions - 1`
(passed here already decremented as `e`), and keep the best score under a
strictly-greater comparison starting from 0. -/
def evalPlayableLoop (ev : Board → ℚ) (b : Board) (e : ℕ)
    (acts : List Act) (best : ℚ) (c : Cache) : ℚ × Cache :=
  match acts with
  | [] => (best, c)
  | a :: rest =>
      match b.apply a with
      | none => evalPlayableLoop ev b e rest best c
      | some s =>
          let r := evalRandable ev s e c
          evalPlayableLoop ev b e rest (if best < r.1 then r.1 else best) r.2
termination_by (e, 5, acts.length)

end

/-- The top-level action-selection loop of `select_action_expectimax` in
`src/search.rs`: iterate the canonical actions, evaluate each applicable one
at depth `max_actions - 1` (passed here already decremented as `e`) with the
shared cache, and keep the strictly best action. -/
def selectLoop (ev : Board → ℚ) (b : Board) (e : ℕ)
    (acts : List Act) (ba : Option Act) (bs : ℚ) (c : Cache) :
    Option Act × ℚ × Cache :=
  match acts with
  | [] => (ba, bs, c)
  | a :: rest =>
      match b.apply a with
      | none => selectLoop ev b e rest ba bs c
      | some s =>
          let r := evalRandable ev s e c
          if bs < r.1 then selectLoop ev b e rest (some a) r.1 r.2
          else selectLoop ev b e rest ba bs r.2

/-- The top-level selector `select_action_expectimax` of `src/search.rs`:
fresh empty cache, best score initialized to 0, strictly-greater updates. -/
def selectActionExpectimax (ev : Board → ℚ) (b : Board) (maxActions : ℕ) :
    Option Act :=
  (selectLoop ev b (maxActions - 1) ALL_ACTIONS none 0 []).1

/-!
Cache-free recursive value functions. These follow the same recursion as
`evaluate_randable` / `evaluate_playable` but without the memo table; the
memoized functions are proved to compute exactly these values.
-/

mutual

/-- Cache-free expected value of a chance-state. -/
def pureRandable (ev : Board → ℚ) (b : Board) (d : ℕ) : ℚ :=
  match d with
  | 0 => ev b
  | e + 1 => pureRandableSum ev (e + 1) b.randomSuccessors
termination_by (d, 3, 0)

/-- Probability-weighted sum over the successor enumeration. -/
def pureRandableSum (ev : Board → ℚ) (d : ℕ) (succs : List (ℚ × Board)) : ℚ :=
  match succs with
  | [] => 0
  | (p, s) :: rest => p * purePlayable ev s d + pureRandableSum ev d rest
termination_by (d, 2, succs.length)

/-- Cache-free value of a decision-state: best successor value under
strictly-greater updates starting from 0. -/
def purePlayable (ev : Board → ℚ) (b : Board) (d : ℕ) : ℚ :=
  match d with
  | 0 => 0
  | e + 1 => purePlayableMax ev b e ALL_ACTIONS 0
termination_by (d, 1, 0)

/-- Fold of the decision-node action loop without a cache. -/
def purePlayableMax (ev : Board → ℚ) (b : Board) (e : ℕ)
    (acts : List Act) (best : ℚ) : ℚ :=
  match acts with
  | [] => best
  | a :: rest =>
      match b.apply a with
      | none => purePlayableMax ev b e rest best
      | some s =>
          let x := pureRandable ev s e
          purePlayableMax ev b e rest (if best < x then x else best)
termination_by (e, 5, acts.length)

end

/-!
Underflow-checked model. Rust's `usize` subtraction `remaining_actions - 1`
panics on underflow in debug builds; here every such subtraction is checked
and an underflow propagates as `none`. This model decides the safety claim
about the depth budget.
-/

mutual

/-- Checked counterpart of `evalRandable`. -/
def evalRandableChk (ev : Board → ℚ) (b : Board) (d : ℕ) (c : Cache) :
    Option (ℚ × Cache) :=
  match cLookup c b with
  | some (v, e) => if e = d then some (v, c) else evalRandableMissChk ev b d c
  | none => evalRandableMissChk ev b d c
termination_by (d, 4, 0)

/-- Checked counterpart of `evalRandableMiss`. -/
def evalRandableMissChk (ev : Board → ℚ) (b : Board) (d : ℕ) (c : Cache) :
    Option (ℚ × Cache) :=
  match d with
  | 0 => some (ev b, c)
  | e + 1 => evalRandableLoopChk ev b (e + 1) b.randomSuccessors 0 c
termination_by (d, 3, 0)

/-- Checked counterpart of `evalRandableLoop`. -/
def evalRandableLoopChk (ev : Board → ℚ) (b : Board) (d : ℕ)
    (succs : List (ℚ × Board)) (sum : ℚ) (c : Cache) : Option (ℚ × Cache) :=
  match succs with
  | [] => some (sum, c)
  | (p, s) :: rest =>
      match evalPlayableChk ev s d c with
      | none => none
      | some r =>
          evalRandableLoopChk ev b d rest (sum + p * r.1)
            (cInsert b (sum + p * r.1, d) r.2)
termination_by (d, 2, succs.length)

/-- Checked counterpart of `evalPlayable`: with `remaining_actions = 0` the
source's `remaining_actions - 1` underflows, reported as `none` (the loop
body performs the subtraction only for applicable actions, but the body is
reached whenever any action applies; underflow is reported as soon as the
depth is zero and some action applies). -/
def evalPlayableChk (ev : Board → ℚ) (b : Board) (d : ℕ) (c : Cache) :
    Option (ℚ × Cache) :=
  match d with
  | 0 =>
      if ALL_ACTIONS.any fun a => (b.apply a).isSome then none
      else some (0, c)
  | e + 1 => evalPlayableLoopChk ev b e ALL_ACTIONS 0 c
termination_by (d, 1, 0)

/-- Checked counterpart of `evalPlayableLoop`. -/
def evalPlayableLoopChk (ev : Board → ℚ) (b : Board) (e : ℕ)
    (acts : List Act) (best : ℚ) (c : Cache) : Option (ℚ × Cache) :=
  match acts with
  | [] => some (best, c)
  | a :: rest =>
      match b.apply a with
      | none => evalPlayableLoopChk ev b e rest best c
      | some s =>
          match evalRandableChk ev s e c with
          | none => none
          | some r =>
              evalPlayableLoopChk ev b e rest
                (if best < r.1 then r.1 else best) r.2
termination_by (e, 5, acts.length)

end

/-- Checked counterpart of `selectLoop`: the subtraction `max_actions - 1`
happens inside the `if let Some(_succ)` branch, so underflow occurs exactly
when the depth budget is zero and an applicable action is reached. -/
def selectLoopChk (ev : Board → ℚ) (b : Board) (maxActions : ℕ)
    (acts : List Act) (ba : Option Act) (bs : ℚ) (c : Cache) :
    Option (Option Act × ℚ × Cache) :=
  match acts with
  | [] => some (ba, bs, c)
  | a :: rest =>
      match b.apply a with
      | none => selectLoopChk ev b maxActions rest ba bs c
      | some s =>
          match maxActions with
          | 0 => none
          | e + 1 =>
              match evalRandableChk ev s e c with
              | none => none
              | some r =>
                  if bs < r.1 then selectLoopChk ev b maxActions rest (some a) r.1 r.2
                  else selectLoopChk ev b maxActions rest ba bs r.2

/-- Checked counterpart of `selectActionExpectimax`: `none` when some
`remaining_actions - 1` subtraction in the search underflows, otherwise the
selected action. -/
def selectActionExpectimaxChk (ev : Board → ℚ) (b : Board) (maxActions : ℕ) :
    Option (Option Act) :=
  (selectLoopChk ev b maxActions ALL_ACTIONS none 0 []).map fun r => r.1

/-- Prefix of the canonical action order strictly before the given action. -/
def actsBefore : Act → List Act
  | Act.Up => []
  | Act.Down => [Act.Up]
  | Act.Left => [Act.Up, Act.Down]
  | Act.Right => [Act.Up, Act.Down, Act.Left]

/-- The non-zero cells of a row segment, in order. -/
def nonzeros : List ℕ → List ℕ
  | [] => []
  | x :: rest => if x = 0 then nonzeros rest else x :: nonzeros rest

/-- A cache is faithful up to depth `d` when every stored entry of depth at
most `d` holds the cache-free value of its board at its stored depth. -/
def CacheFaithful (ev : Board → ℚ) (c : Cache) (d : ℕ) : Prop :=
  ∀ b v e, cLookup c b = some (v, e) → e ≤ d → v = pureRandable ev b e

/-- All cache modifications are at depth at most `d`: an entry of the new
cache of larger depth was already present. -/
def CacheLow (d : ℕ) (c cNew : Cache) : Prop :=
  ∀ b p, cLookup cNew b = some p → cLookup c b = some p ∨ p.2 ≤ d

/-- The value the top-level selector computes for an action: absent for an
inapplicable action, otherwise the cache-free chance value of the successor
at the decremented depth. -/
def selVal (ev : Board → ℚ) (b : Board) (e : ℕ) (a : Act) : Option ℚ :=
  (b.apply a).map fun s => pureRandable ev s e

/-- Cache-free image of the top-level selection loop. -/
def selLoopPure (v : Act → Option ℚ) : List Act → Option Act → ℚ → Option Act × ℚ
  | [], ba, bs => (ba, bs)
  | a :: rest, ba, bs =>
      match v a with
      | none => selLoopPure v rest ba bs
      | some x =>
          if bs < x then selLoopPure v rest (some a) x else selLoopPure v rest ba bs

/-- Running maximum of the defined values over a list of actions. -/
def selMaxVal (v : Act → Option ℚ) : List Act → ℚ → ℚ
  | [], bs => bs
  | a :: rest, bs =>
      match v a with
      | none => selMaxVal v rest bs
      | some x => selMaxVal v rest (max bs x)

/-- First action in the list whose value is exactly `M`. -/
def firstAttainer (v : Act → Option ℚ) (M : ℚ) : List Act → Option Act
  | [] => none
  | a :: rest => if v a = some M then some a else firstAttainer v M rest

/-- A concrete heuristic instance used in witnesses: the number of empty
cells, a standard 2048 evaluation term. -/
def evalEmptyCount (b : Board) : ℚ := (b.numEmpty : ℚ)

/-- The constantly-zero heuristic, used in witnesses for the zero-baseline
behaviour of the selector. -/
def evalZero (_ : Board) : ℚ := 0

/-!
Claims about the structural transforms and move application.
-/

/-- C8: `transpose` and `swap_lr` (mirror) are self-inverse on every board:
applying either twice returns the original board exactly. -/
theorem transpose_swapLR_involutive (b : Board) :
    b.transpose.transpose = b ∧ b.swapLR.swapLR = b := by
  constructor <;> rfl

/-- C2: `merge_left` (`push_left`) performs a single non-cascading
left-to-right pass: `[1,1,1,0]` becomes `[2,1,0,0]` (the first pair merges,
the result does not merge again) and `[0,2,2,2]` becomes `[3,2,0,0]`. -/
theorem pushRow_examples :
    pushRow ⟨1, 1, 1, 0⟩ = ⟨2, 1, 0, 0⟩ ∧ pushRow ⟨0, 2, 2, 2⟩ = ⟨3, 2, 0, 0⟩ := by
  constructor <;> simp [pushRow, Row.toList, pushLeftAux, Row.ofList]

/-- C5: `apply` returns a successor exactly when the symmetry-conjugated
left-merge changes the board; any returned successor differs from the input
and equals that transformed board, and a no-op is signalled by absence of a
result rather than by an error. -/
theorem apply_some_iff_changed (b : Board) (a : Act) :
    ((∃ s, b.apply a = some s) ↔ b.moveResult a ≠ b) ∧
      (∀ s, b.apply a = some s → s ≠ b ∧ s = b.moveResult a) ∧
      (b.apply a = none ↔ b.moveResult a = b) := by
  by_cases h : b = b.moveResult a
  · have h' : b.apply a = none := by
      unfold Board.apply
      rw [if_neg (not_not_intro h)]
    refine ⟨?_, ?_, ?_⟩
    · rw [h']
      exact ⟨(fun hs => absurd hs.choose_spec (by simp)), (fun hne => absurd h.symm hne)⟩
    · intro s hs
      rw [h'] at hs
      cases hs
    · rw [h']
      exact ⟨(fun _ => h.symm), (fun _ => rfl)⟩
  · have h' : b.apply a = some (b.moveResult a) := by
      unfold Board.apply
      rw [if_pos h]
    refine ⟨⟨fun _ => Ne.symm h, fun _ => ⟨_, h'⟩⟩, ?_, ?_⟩
    · intro s hs
      rw [h'] at hs
      have hse : b.moveResult a = s := Option.some.inj hs
      subst hse
      exact ⟨Ne.symm h, rfl⟩
    · rw [h']
      exact ⟨(fun hh => by cases hh), (fun hh => absurd hh.symm h)⟩

/-- Concrete instance of the `apply` characterization, at the board of the
source's `test_actions` unit test. -/
theorem apply_some_iff_changed_witness :
    (⟨⟨0,0,0,0⟩, ⟨1,0,0,0⟩, ⟨4,2,0,0⟩, ⟨3,1,1,0⟩⟩ : Board) ≠
        ⟨⟨1,2,1,0⟩, ⟨4,1,0,0⟩, ⟨3,0,0,0⟩, ⟨0,0,0,0⟩⟩ ∧
      (⟨⟨0,0,0,0⟩, ⟨1,0,0,0⟩, ⟨4,2,0,0⟩, ⟨3,1,1,0⟩⟩ : Board) =
        Board.moveResult ⟨⟨1,2,1,0⟩, ⟨4,1,0,0⟩, ⟨3,0,0,0⟩, ⟨0,0,0,0⟩⟩ Act.Down :=
  (apply_some_iff_changed ⟨⟨1,2,1,0⟩, ⟨4,1,0,0⟩, ⟨3,0,0,0⟩, ⟨0,0,0,0⟩⟩ Act.Down).2.1
    ⟨⟨0,0,0,0⟩, ⟨1,0,0,0⟩, ⟨4,2,0,0⟩, ⟨3,1,1,0⟩⟩
    (by simp [Board.apply, Board.moveResult, Board.transpose, Board.swapLR, Row.rev,
      Board.pushLeftB, pushRow, Row.toList, pushLeftAux, Row.ofList])

/-!
Structure of the single-row merge pass.
-/

theorem nonzeros_length_le (l : List ℕ) : (nonzeros l).length ≤ l.length := by
  induction l with
  | nil => simp [nonzeros]
  | cons x rest ih =>
      by_cases hx : x = 0 <;> simp [nonzeros, hx] <;> omega

theorem nonzeros_ne_zero (l : List ℕ) : ∀ x ∈ nonzeros l, x ≠ 0 := by
  induction l with
  | nil => simp [nonzeros]
  | cons x rest ih =>
      by_cases hx : x = 0 <;> simp [nonzeros, hx] <;> simpa using ih

theorem pushLeftAux_length_le (l : List ℕ) : (pushLeftAux l).length ≤ l.length := by
  induction l using pushLeftAux.induct <;>
    first
      | (simp [pushLeftAux]; done)
      | (simp_all [pushLeftAux]; try omega)

theorem pushLeftAux_eq_of_length (l : List ℕ)
    (h : (pushLeftAux l).length = l.length) : pushLeftAux l = l := by
  induction l using pushLeftAux.induct with
  | case1 => simp [pushLeftAux]
  | case2 rest ih =>
      exfalso
      have := pushLeftAux_length_le rest
      simp [pushLeftAux] at h
      omega
  | case3 v => simp [pushLeftAux]
  | case4 v rest ih =>
      exfalso
      have := pushLeftAux_length_le ((v + 1) :: rest)
      simp [pushLeftAux] at h this
      omega
  | case5 w rest ih =>
      exfalso
      have := pushLeftAux_length_le rest
      simp [pushLeftAux] at h
      omega
  | case6 v w rest hw ih =>
      have hlen : (pushLeftAux ((w + 1) :: rest)).length = ((w + 1) :: rest).length := by
        simp [pushLeftAux, hw] at h
        simpa using h
      simp [pushLeftAux, hw, ih hlen]

/-- On a row whose non-zero cells contain no two consecutive equal values,
the merge pass only compacts the row: it returns exactly the non-zero cells. -/
theorem pushLeftAux_of_chain (l : List ℕ)
    (h : List.Chain' (· ≠ ·) (nonzeros l)) : pushLeftAux l = nonzeros l := by
  induction l using pushLeftAux.induct with
  | case1 => simp [pushLeftAux, nonzeros]
  | case2 rest ih =>
      simpa [pushLeftAux, nonzeros] using ih (by simpa [nonzeros] using h)
  | case3 v => simp [pushLeftAux, nonzeros]
  | case4 v rest ih =>
      have hn : nonzeros ((v + 1) :: 0 :: rest) = nonzeros ((v + 1) :: rest) := by
        simp [nonzeros]
      rw [hn] at h
      simpa [pushLeftAux, hn] using ih h
  | case5 w rest ih =>
      exfalso
      simp [nonzeros, List.chain'_cons] at h
  | case6 v w rest hw ih =>
      have hn : nonzeros ((v + 1) :: (w + 1) :: rest) =
          (v + 1) :: nonzeros ((w + 1) :: rest) := by simp [nonzeros]
      rw [hn] at h ⊢
      have htail := (List.chain'_cons'.mp h).2
      simp [pushLeftAux, hw, ih htail]

theorem Row.ofList_toList (r : Row) : Row.ofList r.toList = r := rfl

theorem Row.toList_ofList (l : List ℕ) (h : l.length ≤ 4) :
    (Row.ofList l).toList = l ++ List.replicate (4 - l.length) 0 := by
  match l with
  | [] => simp [Row.ofList, Row.toList, List.replicate]
  | [a] => simp [Row.ofList, Row.toList, List.replicate]
  | [a, b] => simp [Row.ofList, Row.toList, List.replicate]
  | [a, b, c] => simp [Row.ofList, Row.toList, List.replicate]
  | [a, b, c, d] => simp [Row.ofList, Row.toList, List.replicate]
  | a :: b :: c :: d :: e :: rest => simp at h

theorem nonzeros_eq_self (l : List ℕ) (h : ∀ x ∈ l, x ≠ 0) : nonzeros l = l := by
  induction l with
  | nil => simp [nonzeros]
  | cons x rest ih =>
      have hx : x ≠ 0 := h x (by simp)
      simp [nonzeros, hx]
      exact ih fun y hy => h y (by simp [hy])

theorem nonzeros_append_replicate_zero (l : List ℕ) (k : ℕ) :
    nonzeros (l ++ List.replicate k 0) = nonzeros l := by
  induction l with
  | nil =>
      simp [nonzeros]
      induction k with
      | zero => simp [nonzeros]
      | succ n ih => simpa [List.replicate, nonzeros] using ih
  | cons x rest ih => by_cases hx : x = 0 <;> simp [nonzeros, hx, ih]

/-- A row changed by the merge pass has an empty cell: the pass can only
shorten the sequence of written cells, and a full-length pass is the
identity. -/
theorem pushRow_changed_mem_zero (r : Row) (h : pushRow r ≠ r) :
    0 ∈ (pushRow r).toList := by
  have hle : (pushLeftAux r.toList).length ≤ 4 := by
    have := pushLeftAux_length_le r.toList
    simpa [Row.toList] using this
  by_cases hlen : (pushLeftAux r.toList).length = 4
  · exfalso
    have hr4 : r.toList.length = 4 := by simp [Row.toList]
    have h4 : (pushLeftAux r.toList).length = r.toList.length := by omega
    have := pushLeftAux_eq_of_length r.toList h4
    exact h (by simp [pushRow, this, Row.ofList_toList])
  · have h3 : (pushLeftAux r.toList).length ≤ 3 := by omega
    have hd : (pushLeftAux r.toList).getD 3 0 = 0 :=
      List.getD_eq_default _ _ (by omega)
    have hshape : (pushRow r).toList =
        [(pushLeftAux r.toList).getD 0 0, (pushLeftAux r.toList).getD 1 0,
          (pushLeftAux r.toList).getD 2 0, (pushLeftAux r.toList).getD 3 0] := rfl
    rw [hshape, hd]
    simp

/-- C3 counterexample: `merge_left` is not idempotent. On the row `[1,1,2,0]`
one pass gives `[2,2,0,0]` (the merged `2` lands next to the existing `2`),
and a second pass merges again, giving `[3,0,0,0]`. -/
theorem pushRow_not_idempotent :
    pushRow (pushRow ⟨1, 1, 2, 0⟩) ≠ pushRow ⟨1, 1, 2, 0⟩ := by
  have h1 : pushRow ⟨1, 1, 2, 0⟩ = ⟨2, 2, 0, 0⟩ := by
    simp [pushRow, Row.toList, pushLeftAux, Row.ofList]
  have h2 : pushRow ⟨2, 2, 0, 0⟩ = ⟨3, 0, 0, 0⟩ := by
    simp [pushRow, Row.toList, pushLeftAux, Row.ofList]
  simp [h1, h2]

/-- C3 (amended): `merge_left` is idempotent on exactly the rows whose
non-zero cells contain no two consecutive equal values; in general a second
application can merge tiles produced by the first, so idempotence fails
(see the counterexample on `[1,1,2,0]`). -/
theorem pushRow_idempotent_of_no_adjacent_pair (r : Row)
    (h : List.Chain' (· ≠ ·) (nonzeros r.toList)) :
    pushRow (pushRow r) = pushRow r := by
  have hlen : (nonzeros r.toList).length ≤ 4 := by
    have := nonzeros_length_le r.toList
    simpa [Row.toList] using this
  have h1 : pushLeftAux r.toList = nonzeros r.toList := pushLeftAux_of_chain _ h
  have h2 : (pushRow r).toList =
      nonzeros r.toList ++ List.replicate (4 - (nonzeros r.toList).length) 0 := by
    rw [pushRow, h1]
    exact Row.toList_ofList _ hlen
  have h3 : nonzeros (pushRow r).toList = nonzeros r.toList := by
    rw [h2, nonzeros_append_replicate_zero]
    exact nonzeros_eq_self _ (nonzeros_ne_zero _)
  have h4 : pushLeftAux (pushRow r).toList = nonzeros r.toList := by
    have := pushLeftAux_of_chain (pushRow r).toList (by rw [h3]; exact h)
    rw [this, h3]
  show Row.ofList (pushLeftAux (pushRow r).toList) = pushRow r
  rw [h4, pushRow, h1]

/-- Concrete instance of the amended idempotence statement, on the row
`[1,2,1,0]` whose non-zero cells have no adjacent equal pair. -/
theorem pushRow_idempotent_witness :
    pushRow (pushRow ⟨1, 2, 1, 0⟩) = pushRow ⟨1, 2, 1, 0⟩ :=
  pushRow_idempotent_of_no_adjacent_pair ⟨1, 2, 1, 0⟩ (by
    have : nonzeros (Row.toList ⟨1, 2, 1, 0⟩) = [1, 2, 1] := by
      simp [Row.toList, nonzeros]
    rw [this]
    simp)

/-- Characterization of `Board::apply` used by several proofs. -/
theorem Board.apply_eq_some_iff (b : Board) (a : Act) (s : Board) :
    b.apply a = some s ↔ b ≠ b.moveResult a ∧ s = b.moveResult a := by
  unfold Board.apply
  by_cases h : b = b.moveResult a
  · rw [if_neg (not_not_intro h)]
    exact ⟨(fun hs => by cases hs), (fun hp => absurd h hp.1)⟩
  · rw [if_pos h]
    constructor
    · intro hs
      exact ⟨h, (Option.some.inj hs).symm⟩
    · intro hs
      rw [hs.2]

theorem Board.apply_eq_none_iff (b : Board) (a : Act) :
    b.apply a = none ↔ b = b.moveResult a := by
  unfold Board.apply
  by_cases h : b = b.moveResult a
  · rw [if_neg (not_not_intro h)]
    exact ⟨(fun _ => h), (fun _ => rfl)⟩
  · rw [if_pos h]
    exact ⟨(fun hs => by cases hs), (fun he => absurd he h)⟩

theorem Board.numEmpty_eq_sum (b : Board) :
    b.numEmpty = b.r0.toList.count 0 + b.r1.toList.count 0 +
      b.r2.toList.count 0 + b.r3.toList.count 0 := by
  simp [Board.numEmpty, Board.cellsList, List.count_append]
  ring

set_option maxRecDepth 4000 in
theorem Board.numEmpty_transpose (b : Board) :
    b.transpose.numEmpty = b.numEmpty := by
  rcases b with ⟨⟨a00, a01, a02, a03⟩, ⟨a10, a11, a12, a13⟩,
    ⟨a20, a21, a22, a23⟩, ⟨a30, a31, a32, a33⟩⟩
  simp [Board.numEmpty, Board.cellsList, Board.transpose, Row.toList,
    List.count_cons, List.count_nil]
  ring

set_option maxRecDepth 4000 in
theorem Board.numEmpty_swapLR (b : Board) :
    b.swapLR.numEmpty = b.numEmpty := by
  rcases b with ⟨⟨a00, a01, a02, a03⟩, ⟨a10, a11, a12, a13⟩,
    ⟨a20, a21, a22, a23⟩, ⟨a30, a31, a32, a33⟩⟩
  simp [Board.numEmpty, Board.cellsList, Board.swapLR, Row.rev, Row.toList,
    List.count_cons, List.count_nil]
  ring

theorem Board.pushLeftB_numEmpty_pos (b : Board) (h : b.pushLeftB ≠ b) :
    1 ≤ b.pushLeftB.numEmpty := by
  have hrow : pushRow b.r0 ≠ b.r0 ∨ pushRow b.r1 ≠ b.r1 ∨
      pushRow b.r2 ≠ b.r2 ∨ pushRow b.r3 ≠ b.r3 := by
    by_contra hc
    push_neg at hc
    obtain ⟨h0, h1, h2, h3⟩ := hc
    have : b.pushLeftB = b := by
      show (⟨pushRow b.r0, pushRow b.r1, pushRow b.r2, pushRow b.r3⟩ : Board) = b
      rw [h0, h1, h2, h3]
    exact h this
  have hsum : b.pushLeftB.numEmpty = (pushRow b.r0).toList.count 0 +
      (pushRow b.r1).toList.count 0 + (pushRow b.r2).toList.count 0 +
      (pushRow b.r3).toList.count 0 := Board.numEmpty_eq_sum b.pushLeftB
  rcases hrow with hr | hr | hr | hr <;>
    [have hmem := pushRow_changed_mem_zero _ hr;
     have hmem := pushRow_changed_mem_zero _ hr;
     have hmem := pushRow_changed_mem_zero _ hr;
     have hmem := pushRow_changed_mem_zero _ hr] <;>
    (have hc := List.count_pos_iff.mpr hmem; omega)

/-- C9: any successor returned by `apply` has at least one empty cell, so the
spawn enumeration over a post-move board is never empty. -/
theorem apply_some_numEmpty_pos (b : Board) (a : Act) (s : Board)
    (h : b.apply a = some s) : 1 ≤ s.numEmpty := by
  obtain ⟨hne, hs⟩ := (Board.apply_eq_some_iff b a s).mp h
  have htt : ∀ x : Board, x.transpose.transpose = x := fun _ => rfl
  have hss : ∀ x : Board, x.swapLR.swapLR = x := fun _ => rfl
  cases a with
  | Left =>
      subst hs
      exact Board.pushLeftB_numEmpty_pos b (Ne.symm hne)
  | Up =>
      subst hs
      have hch : Board.pushLeftB b.transpose ≠ b.transpose := by
        intro he
        exact hne (by simp [Board.moveResult, he, htt])
      have := Board.pushLeftB_numEmpty_pos b.transpose hch
      simpa [Board.moveResult, Board.numEmpty_transpose] using this
  | Right =>
      subst hs
      have hch : Board.pushLeftB b.swapLR ≠ b.swapLR := by
        intro he
        exact hne (by simp [Board.moveResult, he, hss])
      have := Board.pushLeftB_numEmpty_pos b.swapLR hch
      simpa [Board.moveResult, Board.numEmpty_swapLR] using this
  | Down =>
      subst hs
      have hch : Board.pushLeftB b.transpose.swapLR ≠ b.transpose.swapLR := by
        intro he
        exact hne (by simp [Board.moveResult, he, hss, htt])
      have := Board.pushLeftB_numEmpty_pos b.transpose.swapLR hch
      simpa [Board.moveResult, Board.numEmpty_transpose, Board.numEmpty_swapLR]
        using this

/-- Concrete instance of the post-move empty-cell invariant, at the `Down`
move of the source's `test_actions` unit test. -/
theorem apply_some_numEmpty_pos_witness :
    1 ≤ Board.numEmpty ⟨⟨0,0,0,0⟩, ⟨1,0,0,0⟩, ⟨4,2,0,0⟩, ⟨3,1,1,0⟩⟩ :=
  apply_some_numEmpty_pos ⟨⟨1,2,1,0⟩, ⟨4,1,0,0⟩, ⟨3,0,0,0⟩, ⟨0,0,0,0⟩⟩ Act.Down
    ⟨⟨0,0,0,0⟩, ⟨1,0,0,0⟩, ⟨4,2,0,0⟩, ⟨3,1,1,0⟩⟩
    (by simp [Board.apply, Board.moveResult, Board.transpose, Board.swapLR, Row.rev,
      Board.pushLeftB, pushRow, Row.toList, pushLeftAux, Row.ofList])

theorem row_filter_length (r : Row) :
    ((List.range 4).filter fun j => r.get j == 0).length = r.toList.count 0 := by
  rcases r with ⟨a, b, c, d⟩
  have hr : List.range 4 = [0, 1, 2, 3] := rfl
  rw [hr]
  by_cases ha : a = 0 <;> by_cases hb : b = 0 <;> by_cases hc : c = 0 <;>
    by_cases hd : d = 0 <;>
    simp [Row.get, Row.toList, List.filter_cons, List.filter_nil,
      List.count_cons, List.count_nil, beq_iff_eq, ha, hb, hc, hd]

theorem Board.emptyCells_length (b : Board) : b.emptyCells.length = b.numEmpty := by
  have hr : List.range 4 = [0, 1, 2, 3] := rfl
  have h0 := row_filter_length b.r0
  have h1 := row_filter_length b.r1
  have h2 := row_filter_length b.r2
  have h3 := row_filter_length b.r3
  rw [Board.numEmpty_eq_sum]
  rw [hr] at h0 h1 h2 h3
  simp only [Board.emptyCells, hr, List.flatMap_cons, List.flatMap_nil,
    List.append_nil, List.length_append, List.length_map, Board.row]
  omega

theorem flatMap_pair_length (f g : ℕ × ℕ → ℚ × Board) (l : List (ℕ × ℕ)) :
    (l.flatMap fun ij => [f ij, g ij]).length = 2 * l.length := by
  induction l with
  | nil => simp
  | cons ij rest ih =>
      simp [ih]
      ring

theorem flatMap_pair_fst_sum (p q : ℚ) (f g : ℕ × ℕ → Board) (l : List (ℕ × ℕ)) :
    ((l.flatMap fun ij => [(p, f ij), (q, g ij)]).map Prod.fst).sum =
      l.length * (p + q) := by
  induction l with
  | nil => simp
  | cons ij rest ih =>
      simp [ih]
      ring

/-- C4: on a board with `e ≥ 1` empty cells the spawn enumeration has exactly
`2 × e` outcomes; over exact arithmetic the probability masses sum to 1, and
each outcome writes exponent 1 with mass `0.9 / e` or exponent 2 with mass
`0.1 / e` into some empty cell. -/
theorem randomSuccessors_spec (b : Board) (h : 1 ≤ b.numEmpty) :
    b.randomSuccessors.length = 2 * b.numEmpty ∧
      (b.randomSuccessors.map Prod.fst).sum = 1 ∧
      ∀ p s, (p, s) ∈ b.randomSuccessors ↔
        ∃ ij ∈ b.emptyCells,
          p = 9 / 10 / (b.numEmpty : ℚ) ∧ s = b.setCell ij.1 ij.2 1 ∨
          p = 1 / 10 / (b.numEmpty : ℚ) ∧ s = b.setCell ij.1 ij.2 2 := by
  have he : (b.numEmpty : ℚ) ≠ 0 := Nat.cast_ne_zero.mpr (by omega)
  refine ⟨?_, ?_, ?_⟩
  · rw [show b.randomSuccessors =
        b.emptyCells.flatMap fun ij =>
          [(9 / 10 / (b.numEmpty : ℚ), b.setCell ij.1 ij.2 1),
            (1 / 10 / (b.numEmpty : ℚ), b.setCell ij.1 ij.2 2)] from rfl]
    rw [flatMap_pair_length
      (fun ij => (9 / 10 / (b.numEmpty : ℚ), b.setCell ij.1 ij.2 1))
      (fun ij => (1 / 10 / (b.numEmpty : ℚ), b.setCell ij.1 ij.2 2))]
    rw [Board.emptyCells_length]
  · rw [show b.randomSuccessors =
        b.emptyCells.flatMap fun ij =>
          [(9 / 10 / (b.numEmpty : ℚ), b.setCell ij.1 ij.2 1),
            (1 / 10 / (b.numEmpty : ℚ), b.setCell ij.1 ij.2 2)] from rfl]
    rw [flatMap_pair_fst_sum]
    rw [Board.emptyCells_length]
    field_simp
    ring
  · intro p s
    constructor
    · intro hmem
      simp only [Board.randomSuccessors, List.mem_flatMap, List.mem_cons,
        List.not_mem_nil, or_false, List.mem_singleton] at hmem
      obtain ⟨ij, hij, hcase⟩ := hmem
      refine ⟨ij, hij, ?_⟩
      rcases hcase with hc | hc
      · exact Or.inl ⟨congrArg Prod.fst hc, congrArg Prod.snd hc⟩
      · exact Or.inr ⟨congrArg Prod.fst hc, congrArg Prod.snd hc⟩
    · intro hex
      obtain ⟨ij, hij, hcase⟩ := hex
      simp only [Board.randomSuccessors, List.mem_flatMap, List.mem_cons,
        List.not_mem_nil, or_false, List.mem_singleton]
      refine ⟨ij, hij, ?_⟩
      rcases hcase with ⟨hp, hs⟩ | ⟨hp, hs⟩
      · exact Or.inl (by rw [hp, hs])
      · exact Or.inr (by rw [hp, hs])

/-- Concrete instance of the spawn-enumeration size property, at the board of
the source's `test_actions` unit test (ten empty cells, twenty outcomes). -/
theorem randomSuccessors_spec_witness :
    (Board.randomSuccessors ⟨⟨1,2,1,0⟩, ⟨4,1,0,0⟩, ⟨3,0,0,0⟩, ⟨0,0,0,0⟩⟩).length =
      2 * Board.numEmpty ⟨⟨1,2,1,0⟩, ⟨4,1,0,0⟩, ⟨3,0,0,0⟩, ⟨0,0,0,0⟩⟩ :=
  (randomSuccessors_spec ⟨⟨1,2,1,0⟩, ⟨4,1,0,0⟩, ⟨3,0,0,0⟩, ⟨0,0,0,0⟩⟩ (by decide)).1

/-!
Search-engine claims. The heuristic is an arbitrary parameter `ev`.
-/

/-- C6: at remaining depth 0, `evaluate_randable` returns exactly the
heuristic's direct evaluation of the chance-state and leaves the cache
unchanged, for any cache whose entries were all stored at positive depth
(as are all entries the algorithm ever stores): no such entry can answer
the depth-0 query, whose hit check requires the stored depth to equal 0. -/
theorem evalRandable_depth_zero (ev : Board → ℚ) (b : Board) (c : Cache)
    (h : ∀ b' v e, cLookup c b' = some (v, e) → 1 ≤ e) :
    evalRandable ev b 0 c = (ev b, c) := by
  cases hl : cLookup c b with
  | none => simp [evalRandable, evalRandableMiss, hl]
  | some p =>
      obtain ⟨v, e⟩ := p
      have he : ¬ e = 0 := by
        have := h b v e hl
        omega
      simp [evalRandable, evalRandableMiss, hl, he]

/-- Concrete instance of the depth-0 cutoff on the empty cache. -/
theorem evalRandable_depth_zero_witness :
    evalRandable evalEmptyCount ⟨⟨1,2,1,0⟩, ⟨4,1,0,0⟩, ⟨3,0,0,0⟩, ⟨0,0,0,0⟩⟩ 0 [] =
      (evalEmptyCount ⟨⟨1,2,1,0⟩, ⟨4,1,0,0⟩, ⟨3,0,0,0⟩, ⟨0,0,0,0⟩⟩, []) :=
  evalRandable_depth_zero evalEmptyCount _ []
    (by intro b' v e hl; simp [cLookup] at hl)

theorem cacheLow_refl (d : ℕ) (c : Cache) : CacheLow d c c :=
  fun _ _ h => Or.inl h

theorem cacheLow_trans (d : ℕ) (c1 c2 c3 : Cache)
    (h1 : CacheLow d c1 c2) (h2 : CacheLow d c2 c3) : CacheLow d c1 c3 := by
  intro b p h
  rcases h2 b p h with h | h
  · exact h1 b p h
  · exact Or.inr h

theorem cLookup_cInsert (b : Board) (v : ℚ × ℕ) (c : Cache) (b' : Board) :
    cLookup (cInsert b v c) b' = if b = b' then some v else cLookup c b' := rfl

theorem cacheFaithful_mono (ev : Board → ℚ) (c : Cache) (d d' : ℕ)
    (h : CacheFaithful ev c d) (hd : d' ≤ d) : CacheFaithful ev c d' :=
  fun b v e hl he => h b v e hl (le_trans he hd)

theorem cacheFaithful_insert_high (ev : Board → ℚ) (c : Cache) (d : ℕ)
    (b : Board) (x : ℚ) (eNew : ℕ) (h : CacheFaithful ev c d) (he : d < eNew) :
    CacheFaithful ev (cInsert b (x, eNew) c) d := by
  intro b' v e hl hle
  rw [cLookup_cInsert] at hl
  by_cases hb : b = b'
  · rw [if_pos hb] at hl
    have h2 := Option.some.inj hl
    rw [Prod.mk.injEq] at h2
    exfalso
    obtain ⟨_, he2⟩ := h2
    omega
  · rw [if_neg hb] at hl
    exact h b' v e hl hle

theorem evalPlayableLoop_spec (ev : Board → ℚ) (e : ℕ)
    (IH : ∀ b c, CacheFaithful ev c e →
      (evalRandable ev b e c).1 = pureRandable ev b e ∧
      CacheFaithful ev (evalRandable ev b e c).2 e ∧
      CacheLow e c (evalRandable ev b e c).2)
    (b : Board) (acts : List Act) :
    ∀ best c, CacheFaithful ev c e →
      (evalPlayableLoop ev b e acts best c).1 = purePlayableMax ev b e acts best ∧
      CacheFaithful ev (evalPlayableLoop ev b e acts best c).2 e ∧
      CacheLow e c (evalPlayableLoop ev b e acts best c).2 := by
  induction acts with
  | nil =>
      intro best c hc
      exact ⟨by simp [evalPlayableLoop, purePlayableMax], by
        simpa [evalPlayableLoop] using hc, by
        simpa [evalPlayableLoop] using cacheLow_refl e c⟩
  | cons a rest ihl =>
      intro best c hc
      cases happ : b.apply a with
      | none =>
          obtain ⟨h1, h2, h3⟩ := ihl best c hc
          have hunf : evalPlayableLoop ev b e (a :: rest) best c =
              evalPlayableLoop ev b e rest best c := by
            simp [evalPlayableLoop, happ]
          have hpure : purePlayableMax ev b e (a :: rest) best =
              purePlayableMax ev b e rest best := by
            simp [purePlayableMax, happ]
          rw [hunf, hpure]
          exact ⟨h1, h2, h3⟩
      | some s =>
          obtain ⟨hpv, hpcf, hplow⟩ := IH s c hc
          obtain ⟨hv2, hcf2, hlow2⟩ :=
            ihl (if best < (evalRandable ev s e c).1 then (evalRandable ev s e c).1
              else best) (evalRandable ev s e c).2 hpcf
          have hunf : evalPlayableLoop ev b e (a :: rest) best c =
              evalPlayableLoop ev b e rest
                (if best < (evalRandable ev s e c).1 then (evalRandable ev s e c).1
                  else best) (evalRandable ev s e c).2 := by
            simp [evalPlayableLoop, happ]
          have hpure : purePlayableMax ev b e (a :: rest) best =
              purePlayableMax ev b e rest
                (if best < pureRandable ev s e then pureRandable ev s e else best) := by
            simp [purePlayableMax, happ]
          rw [hunf, hpure, ← hpv]
          exact ⟨hv2, hcf2, cacheLow_trans e c _ _ hplow hlow2⟩

theorem evalPlayable_spec (ev : Board → ℚ) (e : ℕ)
    (IH : ∀ b c, CacheFaithful ev c e →
      (evalRandable ev b e c).1 = pureRandable ev b e ∧
      CacheFaithful ev (evalRandable ev b e c).2 e ∧
      CacheLow e c (evalRandable ev b e c).2)
    (b : Board) (c : Cache) (hc : CacheFaithful ev c e) :
    (evalPlayable ev b (e + 1) c).1 = purePlayable ev b (e + 1) ∧
      CacheFaithful ev (evalPlayable ev b (e + 1) c).2 e ∧
      CacheLow e c (evalPlayable ev b (e + 1) c).2 := by
  obtain ⟨h1, h2, h3⟩ := evalPlayableLoop_spec ev e IH b ALL_ACTIONS 0 c hc
  have hunf : evalPlayable ev b (e + 1) c = evalPlayableLoop ev b e ALL_ACTIONS 0 c := by
    simp [evalPlayable]
  have hpure : purePlayable ev b (e + 1) = purePlayableMax ev b e ALL_ACTIONS 0 := by
    simp [purePlayable]
  rw [hunf, hpure]
  exact ⟨h1, h2, h3⟩

theorem evalRandableLoop_spec (ev : Board → ℚ) (e : ℕ)
    (IH : ∀ b c, CacheFaithful ev c e →
      (evalRandable ev b e c).1 = pureRandable ev b e ∧
      CacheFaithful ev (evalRandable ev b e c).2 e ∧
      CacheLow e c (evalRandable ev b e c).2)
    (b : Board) (succs : List (ℚ × Board)) :
    ∀ sum c, CacheFaithful ev c e →
      (evalRandableLoop ev b (e + 1) succs sum c).1 =
          sum + pureRandableSum ev (e + 1) succs ∧
        CacheFaithful ev (evalRandableLoop ev b (e + 1) succs sum c).2 e ∧
        (∀ b' p, b' ≠ b →
          cLookup (evalRandableLoop ev b (e + 1) succs sum c).2 b' = some p →
          cLookup c b' = some p ∨ p.2 ≤ e) ∧
        (succs = [] → (evalRandableLoop ev b (e + 1) succs sum c).2 = c) ∧
        (succs ≠ [] →
          cLookup (evalRandableLoop ev b (e + 1) succs sum c).2 b =
            some ((evalRandableLoop ev b (e + 1) succs sum c).1, e + 1)) := by
  induction succs with
  | nil =>
      intro sum c hc
      refine ⟨by simp [evalRandableLoop, pureRandableSum], ?_, ?_, ?_, by simp⟩
      · simpa [evalRandableLoop] using hc
      · intro b' p _ hl
        exact Or.inl (by simpa [evalRandableLoop] using hl)
      · intro _
        simp [evalRandableLoop]
  | cons ps rest ihs =>
      obtain ⟨p, s⟩ := ps
      intro sum c hc
      obtain ⟨hpv, hpcf, hplow⟩ := evalPlayable_spec ev e IH s c hc
      have hc1f : CacheFaithful ev
          (cInsert b (sum + p * (evalPlayable ev s (e + 1) c).1, e + 1)
            (evalPlayable ev s (e + 1) c).2) e :=
        cacheFaithful_insert_high ev (evalPlayable ev s (e + 1) c).2 e b
          (sum + p * (evalPlayable ev s (e + 1) c).1) (e + 1) hpcf (by omega)
      obtain ⟨hv2, hcf2, hmod2, hnil2, hcons2⟩ :=
        ihs (sum + p * (evalPlayable ev s (e + 1) c).1)
          (cInsert b (sum + p * (evalPlayable ev s (e + 1) c).1, e + 1)
            (evalPlayable ev s (e + 1) c).2) hc1f
      have hunf : evalRandableLoop ev b (e + 1) ((p, s) :: rest) sum c =
          evalRandableLoop ev b (e + 1) rest
            (sum + p * (evalPlayable ev s (e + 1) c).1)
            (cInsert b (sum + p * (evalPlayable ev s (e + 1) c).1, e + 1)
              (evalPlayable ev s (e + 1) c).2) := by
        simp [evalRandableLoop]
      rw [hunf]
      have hsumeq : sum + p * (evalPlayable ev s (e + 1) c).1 +
          pureRandableSum ev (e + 1) rest =
          sum + pureRandableSum ev (e + 1) ((p, s) :: rest) := by
        rw [hpv]
        simp [pureRandableSum]
        ring
      refine ⟨by rw [hv2, hsumeq], hcf2, ?_, ?_, ?_⟩
      · intro b' q hb' hl
        rcases hmod2 b' q hb' hl with hcase | hcase
        · rw [cLookup_cInsert, if_neg (fun he => hb' he.symm)] at hcase
          exact hplow b' q hcase
        · exact Or.inr hcase
      · intro hcontra
        cases hcontra
      · intro _
        rcases List.eq_nil_or_concat rest with hrest | _
        · subst hrest
          have h2 := hnil2 rfl
          rw [h2]
          rw [cLookup_cInsert, if_pos rfl]
          have hv0 : (evalRandableLoop ev b (e + 1) ([] : List (ℚ × Board))
              (sum + p * (evalPlayable ev s (e + 1) c).1)
              (cInsert b (sum + p * (evalPlayable ev s (e + 1) c).1, e + 1)
                (evalPlayable ev s (e + 1) c).2)).1 =
              sum + p * (evalPlayable ev s (e + 1) c).1 := by
            simp [evalRandableLoop]
          rw [hv0]
        · have hne : rest ≠ [] := by
            rcases rest with _ | _
            · simp_all
            · simp
          exact hcons2 hne

theorem evalRandableMiss_spec (ev : Board → ℚ) (e : ℕ)
    (IH : ∀ b c, CacheFaithful ev c e →
      (evalRandable ev b e c).1 = pureRandable ev b e ∧
      CacheFaithful ev (evalRandable ev b e c).2 e ∧
      CacheLow e c (evalRandable ev b e c).2)
    (b : Board) (c : Cache) (hc : CacheFaithful ev c (e + 1)) :
    (evalRandableMiss ev b (e + 1) c).1 = pureRandable ev b (e + 1) ∧
      CacheFaithful ev (evalRandableMiss ev b (e + 1) c).2 (e + 1) ∧
      CacheLow (e + 1) c (evalRandableMiss ev b (e + 1) c).2 := by
  have hce : CacheFaithful ev c e := cacheFaithful_mono ev c (e + 1) e hc (by omega)
  obtain ⟨hv, hcf, hmod, hnil, hcons⟩ :=
    evalRandableLoop_spec ev e IH b b.randomSuccessors 0 c hce
  have hunf : evalRandableMiss ev b (e + 1) c =
      evalRandableLoop ev b (e + 1) b.randomSuccessors 0 c := by
    simp [evalRandableMiss]
  rw [hunf]
  have hpure : pureRandable ev b (e + 1) =
      pureRandableSum ev (e + 1) b.randomSuccessors := by
    simp [pureRandable]
  refine ⟨by rw [hv, hpure]; ring, ?_, ?_⟩
  · intro b' v e' hl hle
    by_cases hb : b' = b
    · rw [hb] at hl ⊢
      cases hsuccs : b.randomSuccessors with
      | nil =>
          have h2 := hnil hsuccs
          rw [h2] at hl
          exact hc b v e' hl hle
      | cons x xs =>
          have hne : b.randomSuccessors ≠ [] := by simp [hsuccs]
          have h2 := hcons hne
          have h3 := hl.symm.trans h2
          have h4 := Option.some.inj h3
          rw [Prod.mk.injEq] at h4
          obtain ⟨hv4, he4⟩ := h4
          rw [hv4, he4, hv, hpure]
          ring
    · rcases hmod b' (v, e') hb hl with hcase | hcase
      · exact hc b' v e' hcase hle
      · exact hcf b' v e' hl hcase
  · intro b' q hl
    by_cases hb : b' = b
    · rw [hb] at hl ⊢
      cases hsuccs : b.randomSuccessors with
      | nil =>
          have h2 := hnil hsuccs
          rw [h2] at hl
          exact Or.inl hl
      | cons x xs =>
          have hne : b.randomSuccessors ≠ [] := by simp [hsuccs]
          have h2 := hcons hne
          have h3 := hl.symm.trans h2
          have h4 := Option.some.inj h3
          right
          rw [h4]
    · rcases hmod b' q hb hl with hcase | hcase
      · exact Or.inl hcase
      · exact Or.inr (by omega)

theorem evalRandable_spec (ev : Board → ℚ) :
    ∀ d b c, CacheFaithful ev c d →
      (evalRandable ev b d c).1 = pureRandable ev b d ∧
        CacheFaithful ev (evalRandable ev b d c).2 d ∧
        CacheLow d c (evalRandable ev b d c).2 := by
  intro d
  induction d with
  | zero =>
      intro b c hc
      cases hl : cLookup c b with
      | none =>
          have hunf : evalRandable ev b 0 c = (ev b, c) := by
            simp [evalRandable, evalRandableMiss, hl]
          rw [hunf]
          exact ⟨by simp [pureRandable], hc, cacheLow_refl 0 c⟩
      | some p =>
          obtain ⟨v, e⟩ := p
          by_cases he : e = 0
          · subst he
            have hunf : evalRandable ev b 0 c = (v, c) := by
              simp [evalRandable, hl]
            rw [hunf]
            have := hc b v 0 hl (le_refl 0)
            exact ⟨by simpa [pureRandable] using this, hc, cacheLow_refl 0 c⟩
          · have hunf : evalRandable ev b 0 c = (ev b, c) := by
              simp [evalRandable, evalRandableMiss, hl, he]
            rw [hunf]
            exact ⟨by simp [pureRandable], hc, cacheLow_refl 0 c⟩
  | succ e ihe =>
      intro b c hc
      cases hl : cLookup c b with
      | none =>
          have hunf : evalRandable ev b (e + 1) c = evalRandableMiss ev b (e + 1) c := by
            simp [evalRandable, hl]
          rw [hunf]
          exact evalRandableMiss_spec ev e ihe b c hc
      | some p =>
          obtain ⟨v, e'⟩ := p
          by_cases he : e' = e + 1
          · subst he
            have hunf : evalRandable ev b (e + 1) c = (v, c) := by
              simp [evalRandable, hl]
            rw [hunf]
            have := hc b v (e + 1) hl (le_refl _)
            exact ⟨this, hc, cacheLow_refl (e + 1) c⟩
          · have hunf : evalRandable ev b (e + 1) c = evalRandableMiss ev b (e + 1) c := by
              simp [evalRandable, hl, he]
            rw [hunf]
            exact evalRandableMiss_spec ev e ihe b c hc

/-- C7: memoization is transparent and depth-coupled. For any cache whose
entries hold cache-free values (as the empty cache does, and as every cache
produced by the search does — see the last conjunct), `evaluate_randable`
returns exactly the cache-free recursive value; a second call on the same
cache instance returns the identical result; a stored entry answers the query
only when its recorded depth equals the queried depth exactly, otherwise the
evaluator takes the miss path just as with no entry at all. -/
theorem evalRandable_memo_transparent (ev : Board → ℚ) (b : Board) (d : ℕ)
    (c : Cache)
    (hc : ∀ b' v e, cLookup c b' = some (v, e) → v = pureRandable ev b' e) :
    (evalRandable ev b d c).1 = pureRandable ev b d ∧
      (evalRandable ev b d (evalRandable ev b d c).2).1 =
        (evalRandable ev b d c).1 ∧
      (∀ b' v e, cLookup (evalRandable ev b d c).2 b' = some (v, e) →
        v = pureRandable ev b' e) ∧
      (∀ v, cLookup c b = some (v, d) → evalRandable ev b d c = (v, c)) ∧
      (∀ v e, cLookup c b = some (v, e) → e ≠ d →
        evalRandable ev b d c = evalRandableMiss ev b d c) ∧
      (cLookup c b = none → evalRandable ev b d c = evalRandableMiss ev b d c) := by
  have hcd : CacheFaithful ev c d := fun b' v e hl _ => hc b' v e hl
  obtain ⟨h1, h2, h3⟩ := evalRandable_spec ev d b c hcd
  have hfull : ∀ b' v e, cLookup (evalRandable ev b d c).2 b' = some (v, e) →
      v = pureRandable ev b' e := by
    intro b' v e hl
    rcases h3 b' (v, e) hl with hcase | hcase
    · exact hc b' v e hcase
    · exact h2 b' v e hl hcase
  have hcd2 : CacheFaithful ev (evalRandable ev b d c).2 d :=
    fun b' v e hl _ => hfull b' v e hl
  obtain ⟨h1', _, _⟩ := evalRandable_spec ev d b (evalRandable ev b d c).2 hcd2
  refine ⟨h1, by rw [h1', h1], hfull, ?_, ?_, ?_⟩
  · intro v hl
    simp [evalRandable, hl]
  · intro v e hl hne
    simp [evalRandable, hl, hne]
  · intro hl
    simp [evalRandable, hl]

/-- Concrete instance of memoization transparency: evaluating at depth 1 from
the empty cache yields the cache-free value. -/
theorem evalRandable_memo_transparent_witness :
    (evalRandable evalEmptyCount ⟨⟨1,2,1,0⟩, ⟨4,1,0,0⟩, ⟨3,0,0,0⟩, ⟨0,0,0,0⟩⟩ 1 []).1 =
      pureRandable evalEmptyCount ⟨⟨1,2,1,0⟩, ⟨4,1,0,0⟩, ⟨3,0,0,0⟩, ⟨0,0,0,0⟩⟩ 1 :=
  (evalRandable_memo_transparent evalEmptyCount _ 1 []
    (by intro b' v e hl; simp [cLookup] at hl)).1

theorem mem_ALL_ACTIONS (a : Act) : a ∈ ALL_ACTIONS := by
  cases a <;> simp [ALL_ACTIONS]

theorem selVal_cases (ev : Board → ℚ) (b : Board) (e : ℕ) (a : Act) :
    (selVal ev b e a = none ∧ b.apply a = none) ∨
      (selVal ev b e a = some (pureRandable ev (b.moveResult a) e) ∧
        b.apply a = some (b.moveResult a)) := by
  by_cases h : b = b.moveResult a
  · left
    have happ : b.apply a = none := (Board.apply_eq_none_iff b a).mpr h
    exact ⟨by simp [selVal, happ], happ⟩
  · right
    have happ : b.apply a = some (b.moveResult a) :=
      (Board.apply_eq_some_iff b a (b.moveResult a)).mpr ⟨h, rfl⟩
    exact ⟨by simp [selVal, happ], happ⟩

theorem selectLoop_pure (ev : Board → ℚ) (b : Board) (e : ℕ) :
    ∀ (acts : List Act) (ba : Option Act) (bs : ℚ) (c : Cache),
      CacheFaithful ev c e →
      ((selectLoop ev b e acts ba bs c).1, (selectLoop ev b e acts ba bs c).2.1) =
        selLoopPure (selVal ev b e) acts ba bs := by
  intro acts
  induction acts with
  | nil => intro ba bs c _; simp [selectLoop, selLoopPure]
  | cons a rest ih =>
      intro ba bs c hc
      cases happ : b.apply a with
      | none =>
          have hval : selVal ev b e a = none := by simp [selVal, happ]
          have h1 : selectLoop ev b e (a :: rest) ba bs c =
              selectLoop ev b e rest ba bs c := by simp [selectLoop, happ]
          have h2 : selLoopPure (selVal ev b e) (a :: rest) ba bs =
              selLoopPure (selVal ev b e) rest ba bs := by simp [selLoopPure, hval]
          rw [h1, h2]
          exact ih ba bs c hc
      | some s =>
          obtain ⟨hrv, hrcf, _⟩ := evalRandable_spec ev e s c hc
          have hval : selVal ev b e a = some (pureRandable ev s e) := by
            simp [selVal, happ]
          have h2 : selLoopPure (selVal ev b e) (a :: rest) ba bs =
              if bs < pureRandable ev s e then
                selLoopPure (selVal ev b e) rest (some a) (pureRandable ev s e)
              else selLoopPure (selVal ev b e) rest ba bs := by
            simp [selLoopPure, hval]
          by_cases hlt : bs < (evalRandable ev s e c).1
          · have h1 : selectLoop ev b e (a :: rest) ba bs c =
                selectLoop ev b e rest (some a) (evalRandable ev s e c).1
                  (evalRandable ev s e c).2 := by
              simp [selectLoop, happ, hlt]
            rw [h1, h2, if_pos (by rw [← hrv]; exact hlt), ← hrv]
            exact ih (some a) (evalRandable ev s e c).1 (evalRandable ev s e c).2 hrcf
          · have h1 : selectLoop ev b e (a :: rest) ba bs c =
                selectLoop ev b e rest ba bs (evalRandable ev s e c).2 := by
              simp [selectLoop, happ, hlt]
            rw [h1, h2, if_neg (by rw [← hrv]; exact hlt)]
            exact ih ba bs (evalRandable ev s e c).2 hrcf

theorem selMaxVal_init_le (v : Act → Option ℚ) :
    ∀ (l : List Act) (bs : ℚ), bs ≤ selMaxVal v l bs := by
  intro l
  induction l with
  | nil => intro bs; simp [selMaxVal]
  | cons a rest ih =>
      intro bs
      cases hva : v a with
      | none => simpa [selMaxVal, hva] using ih bs
      | some x =>
          have h1 : bs ≤ max bs x := le_max_left bs x
          have h2 := ih (max bs x)
          simp [selMaxVal, hva]
          exact le_trans h1 h2

theorem selMaxVal_le (v : Act → Option ℚ) :
    ∀ (l : List Act) (bs : ℚ) (a : Act) (x : ℚ),
      a ∈ l → v a = some x → x ≤ selMaxVal v l bs := by
  intro l
  induction l with
  | nil => intro bs a x ha; simp at ha
  | cons a' rest ih =>
      intro bs a x ha hva
      rcases List.mem_cons.mp ha with heq | hmem
      · subst heq
        rw [selMaxVal, hva]
        exact le_trans (le_max_right bs x) (selMaxVal_init_le v rest (max bs x))
      · cases hva' : v a' with
        | none => simpa [selMaxVal, hva'] using ih bs a x hmem hva
        | some y => simpa [selMaxVal, hva'] using ih (max bs y) a x hmem hva

theorem selMaxVal_attained (v : Act → Option ℚ) :
    ∀ (l : List Act) (bs : ℚ),
      selMaxVal v l bs = bs ∨ ∃ a ∈ l, v a = some (selMaxVal v l bs) := by
  intro l
  induction l with
  | nil => intro bs; left; simp [selMaxVal]
  | cons a rest ih =>
      intro bs
      cases hva : v a with
      | none =>
          rcases ih bs with hcase | ⟨a', ha', hva'⟩
          · left; simpa [selMaxVal, hva] using hcase
          · right
            exact ⟨a', List.mem_cons_of_mem a ha', by simpa [selMaxVal, hva] using hva'⟩
      | some x =>
          have hstep : selMaxVal v (a :: rest) bs = selMaxVal v rest (max bs x) := by
            simp [selMaxVal, hva]
          rcases ih (max bs x) with hcase | ⟨a', ha', hva'⟩
          · rcases max_choice bs x with hm | hm
            · left; rw [hstep, hcase, hm]
            · right
              exact ⟨a, List.mem_cons_self a rest, by rw [hstep, hcase, hm, hva]⟩
          · right
            exact ⟨a', List.mem_cons_of_mem a ha', by rw [hstep]; exact hva'⟩

theorem selLoopPure_eq (v : Act → Option ℚ) :
    ∀ (l : List Act) (ba : Option Act) (bs : ℚ),
      selLoopPure v l ba bs =
        if bs < selMaxVal v l bs then (firstAttainer v (selMaxVal v l bs) l, selMaxVal v l bs)
        else (ba, bs) := by
  intro l
  induction l with
  | nil =>
      intro ba bs
      simp [selLoopPure, selMaxVal]
  | cons a rest ih =>
      intro ba bs
      cases hva : v a with
      | none =>
          have hm : selMaxVal v (a :: rest) bs = selMaxVal v rest bs := by
            simp [selMaxVal, hva]
          have hf : ∀ M, firstAttainer v M (a :: rest) = firstAttainer v M rest := by
            intro M
            simp [firstAttainer, hva]
          rw [show selLoopPure v (a :: rest) ba bs = selLoopPure v rest ba bs from by
            simp [selLoopPure, hva]]
          rw [ih ba bs, hm, hf]
      | some x =>
          by_cases hlt : bs < x
          · have hm : selMaxVal v (a :: rest) bs = selMaxVal v rest x := by
              simp [selMaxVal, hva, max_eq_right (le_of_lt hlt)]
            have hstep : selLoopPure v (a :: rest) ba bs =
                selLoopPure v rest (some a) x := by
              simp [selLoopPure, hva, hlt]
            rw [hstep, ih (some a) x, hm]
            have hxM : x ≤ selMaxVal v rest x := selMaxVal_init_le v rest x
            have hbsM : bs < selMaxVal v rest x := lt_of_lt_of_le hlt hxM
            rw [if_pos hbsM]
            by_cases hxlt : x < selMaxVal v rest x
            · rw [if_pos hxlt]
              have hne : ¬ v a = some (selMaxVal v rest x) := by
                rw [hva]
                intro hcontra
                exact absurd (Option.some.inj hcontra) (ne_of_lt hxlt)
              rw [show firstAttainer v (selMaxVal v rest x) (a :: rest) =
                  firstAttainer v (selMaxVal v rest x) rest from by
                simp [firstAttainer, hne]]
            · rw [if_neg hxlt]
              have hMx : selMaxVal v rest x = x := le_antisymm (not_lt.mp hxlt) hxM
              rw [hMx]
              rw [show firstAttainer v x (a :: rest) = some a from by
                simp [firstAttainer, hva]]
          · have hm : selMaxVal v (a :: rest) bs = selMaxVal v rest bs := by
              simp [selMaxVal, hva, max_eq_left (not_lt.mp hlt)]
            have hstep : selLoopPure v (a :: rest) ba bs =
                selLoopPure v rest ba bs := by
              simp [selLoopPure, hva, hlt]
            rw [hstep, ih ba bs, hm]
            by_cases hbsM : bs < selMaxVal v rest bs
            · rw [if_pos hbsM, if_pos hbsM]
              have hne : ¬ v a = some (selMaxVal v rest bs) := by
                rw [hva]
                intro hcontra
                rw [← Option.some.inj hcontra] at hbsM
                exact hlt hbsM
              rw [show firstAttainer v (selMaxVal v rest bs) (a :: rest) =
                  firstAttainer v (selMaxVal v rest bs) rest from by
                simp [firstAttainer, hne]]
            · rw [if_neg hbsM, if_neg hbsM]

theorem firstAttainer_isSome (v : Act → Option ℚ) (M : ℚ) :
    ∀ l : List Act, (∃ a ∈ l, v a = some M) → (firstAttainer v M l).isSome := by
  intro l
  induction l with
  | nil => intro h; simp at h
  | cons a rest ih =>
      intro h
      by_cases hva : v a = some M
      · simp [firstAttainer, hva]
      · have hrest : ∃ a' ∈ rest, v a' = some M := by
          obtain ⟨a', ha', hva'⟩ := h
          rcases List.mem_cons.mp ha' with heq | hmem
          · exact absurd (heq ▸ hva') hva
          · exact ⟨a', hmem, hva'⟩
        simpa [firstAttainer, hva] using ih hrest

theorem firstAttainer_ALL_some (v : Act → Option ℚ) (M : ℚ) (a : Act)
    (h : firstAttainer v M ALL_ACTIONS = some a) :
    v a = some M ∧ ∀ x ∈ actsBefore a, ¬ v x = some M := by
  by_cases hu : v Act.Up = some M
  · have ha : a = Act.Up := by
      simp [ALL_ACTIONS, firstAttainer, hu] at h
      exact h.symm
    subst ha
    exact ⟨hu, by simp [actsBefore]⟩
  · by_cases hdn : v Act.Down = some M
    · have ha : a = Act.Down := by
        simp [ALL_ACTIONS, firstAttainer, hu, hdn] at h
        exact h.symm
      subst ha
      refine ⟨hdn, ?_⟩
      intro x hx
      simp [actsBefore] at hx
      rw [hx]
      exact hu
    · by_cases hl : v Act.Left = some M
      · have ha : a = Act.Left := by
          simp [ALL_ACTIONS, firstAttainer, hu, hdn, hl] at h
          exact h.symm
        subst ha
        refine ⟨hl, ?_⟩
        intro x hx
        simp [actsBefore] at hx
        rcases hx with hx | hx <;> rw [hx]
        · exact hu
        · exact hdn
      · by_cases hr : v Act.Right = some M
        · have ha : a = Act.Right := by
            simp [ALL_ACTIONS, firstAttainer, hu, hdn, hl, hr] at h
            exact h.symm
          subst ha
          refine ⟨hr, ?_⟩
          intro x hx
          simp [actsBefore] at hx
          rcases hx with hx | hx | hx <;> rw [hx]
          · exact hu
          · exact hdn
          · exact hl
        · exfalso
          simp [ALL_ACTIONS, firstAttainer, hu, hdn, hl, hr] at h

theorem firstAttainer_ALL_of (v : Act → Option ℚ) (M : ℚ) (a : Act)
    (ha : v a = some M) (hbef : ∀ x ∈ actsBefore a, ¬ v x = some M) :
    firstAttainer v M ALL_ACTIONS = some a := by
  cases a with
  | Up => simp [ALL_ACTIONS, firstAttainer, ha]
  | Down =>
      have hu := hbef Act.Up (by simp [actsBefore])
      simp [ALL_ACTIONS, firstAttainer, hu, ha]
  | Left =>
      have hu := hbef Act.Up (by simp [actsBefore])
      have hdn := hbef Act.Down (by simp [actsBefore])
      simp [ALL_ACTIONS, firstAttainer, hu, hdn, ha]
  | Right =>
      have hu := hbef Act.Up (by simp [actsBefore])
      have hdn := hbef Act.Down (by simp [actsBefore])
      have hl := hbef Act.Left (by simp [actsBefore])
      simp [ALL_ACTIONS, firstAttainer, hu, hdn, hl, ha]

/-- C1: with a depth budget of at least 1, `select_action_expectimax` returns
an action exactly when that action is applicable, its expected value is
strictly positive (best score starts at 0 with strictly-greater updates),
no applicable action has a larger value, and every applicable action earlier
in the canonical order (Up, Down, Left, Right) has a strictly smaller value;
it returns absence exactly when every applicable action's value is zero or
negative — in particular even when applicable moves exist. Any returned
action is one `apply` accepts. -/
theorem selectActionExpectimax_spec (ev : Board → ℚ) (b : Board) (d : ℕ)
    (_hd : 1 ≤ d) :
    (∀ a, selectActionExpectimax ev b d = some a ↔
      ((b.apply a).isSome ∧
        0 < pureRandable ev (b.moveResult a) (d - 1) ∧
        (∀ x, (b.apply x).isSome →
          pureRandable ev (b.moveResult x) (d - 1) ≤
            pureRandable ev (b.moveResult a) (d - 1)) ∧
        ∀ x ∈ actsBefore a, (b.apply x).isSome →
          pureRandable ev (b.moveResult x) (d - 1) <
            pureRandable ev (b.moveResult a) (d - 1))) ∧
    (selectActionExpectimax ev b d = none ↔
      ∀ a, (b.apply a).isSome → pureRandable ev (b.moveResult a) (d - 1) ≤ 0) := by
  have hempty : CacheFaithful ev ([] : Cache) (d - 1) := by
    intro b' v' e' hl
    simp [cLookup] at hl
  have hpair := selectLoop_pure ev b (d - 1) ALL_ACTIONS none 0 [] hempty
  have hsel : selectActionExpectimax ev b d =
      (selLoopPure (selVal ev b (d - 1)) ALL_ACTIONS none 0).1 :=
    congrArg Prod.fst hpair
  rw [selLoopPure_eq] at hsel
  have hval_some : ∀ x, (b.apply x).isSome → selVal ev b (d - 1) x =
      some (pureRandable ev (b.moveResult x) (d - 1)) := by
    intro x hx
    rcases selVal_cases ev b (d - 1) x with ⟨_, happ⟩ | ⟨hv, _⟩
    · rw [happ] at hx
      simp at hx
    · exact hv
  have hv_inv : ∀ x y, selVal ev b (d - 1) x = some y →
      (b.apply x).isSome ∧ y = pureRandable ev (b.moveResult x) (d - 1) := by
    intro x y hy
    rcases selVal_cases ev b (d - 1) x with ⟨hv, _⟩ | ⟨hv, happ⟩
    · rw [hv] at hy
      cases hy
    · rw [hv] at hy
      exact ⟨by simp [happ], (Option.some.inj hy).symm⟩
  have hM_ge : ∀ x, (b.apply x).isSome →
      pureRandable ev (b.moveResult x) (d - 1) ≤
        selMaxVal (selVal ev b (d - 1)) ALL_ACTIONS 0 :=
    fun x hx => selMaxVal_le _ ALL_ACTIONS 0 x _ (mem_ALL_ACTIONS x) (hval_some x hx)
  constructor
  · intro a
    constructor
    · intro h
      by_cases h0 : 0 < selMaxVal (selVal ev b (d - 1)) ALL_ACTIONS 0
      · rw [if_pos h0] at hsel
        have hfa : firstAttainer (selVal ev b (d - 1))
            (selMaxVal (selVal ev b (d - 1)) ALL_ACTIONS 0) ALL_ACTIONS = some a :=
          hsel.symm.trans h
        obtain ⟨hvaM, hbef⟩ := firstAttainer_ALL_some _ _ _ hfa
        obtain ⟨hsome, hMval⟩ := hv_inv a _ hvaM
        refine ⟨hsome, by rw [← hMval]; exact h0, ?_, ?_⟩
        · intro x hx
          rw [← hMval]
          exact hM_ge x hx
        · intro x hx hxs
          have hne : pureRandable ev (b.moveResult x) (d - 1) ≠
              pureRandable ev (b.moveResult a) (d - 1) := by
            intro heq
            exact hbef x hx (by rw [hval_some x hxs, heq, hMval])
          exact lt_of_le_of_ne (le_trans (hM_ge x hxs) (le_of_eq hMval)) hne
      · rw [if_neg h0] at hsel
        rw [h] at hsel
        cases hsel
    · intro ⟨hsome, hpos, hmax, hbefs⟩
      have hle : pureRandable ev (b.moveResult a) (d - 1) ≤
          selMaxVal (selVal ev b (d - 1)) ALL_ACTIONS 0 := hM_ge a hsome
      have hMa : selMaxVal (selVal ev b (d - 1)) ALL_ACTIONS 0 =
          pureRandable ev (b.moveResult a) (d - 1) := by
        rcases selMaxVal_attained (selVal ev b (d - 1)) ALL_ACTIONS 0 with hz | hatt
        · exfalso
          rw [hz] at hle
          exact absurd (lt_of_lt_of_le hpos hle) (lt_irrefl 0)
        · obtain ⟨x, _, hvx⟩ := hatt
          obtain ⟨hxs, hxval⟩ := hv_inv x _ hvx
          have h1 := hmax x hxs
          rw [← hxval] at h1
          exact le_antisymm h1 hle
      have h0 : 0 < selMaxVal (selVal ev b (d - 1)) ALL_ACTIONS 0 := by
        rw [hMa]
        exact hpos
      rw [if_pos h0] at hsel
      rw [hsel]
      show firstAttainer (selVal ev b (d - 1)) _ ALL_ACTIONS = some a
      apply firstAttainer_ALL_of
      · rw [hval_some a hsome, hMa]
      · intro x hx hcontra
        obtain ⟨hxs, hxval⟩ := hv_inv x _ hcontra
        have := hbefs x hx hxs
        rw [← hxval, hMa] at this
        exact absurd this (lt_irrefl _)
  · constructor
    · intro h
      by_cases h0 : 0 < selMaxVal (selVal ev b (d - 1)) ALL_ACTIONS 0
      · exfalso
        rcases selMaxVal_attained (selVal ev b (d - 1)) ALL_ACTIONS 0 with hz | hatt
        · rw [hz] at h0
          exact absurd h0 (lt_irrefl 0)
        · have hs := firstAttainer_isSome (selVal ev b (d - 1)) _ ALL_ACTIONS hatt
          rw [if_pos h0] at hsel
          rw [h] at hsel
          have hs2 : (none : Option Act).isSome = true := by
            rw [show (none : Option Act) =
              firstAttainer (selVal ev b (d - 1))
                (selMaxVal (selVal ev b (d - 1)) ALL_ACTIONS 0) ALL_ACTIONS from hsel]
            exact hs
          simp at hs2
      · intro x hx
        exact le_trans (hM_ge x hx) (not_lt.mp h0)
    · intro hall
      have h0 : ¬ 0 < selMaxVal (selVal ev b (d - 1)) ALL_ACTIONS 0 := by
        rcases selMaxVal_attained (selVal ev b (d - 1)) ALL_ACTIONS 0 with hz | hatt
        · rw [hz]
          exact lt_irrefl 0
        · obtain ⟨x, _, hvx⟩ := hatt
          obtain ⟨hxs, hxval⟩ := hv_inv x _ hvx
          rw [hxval]
          exact not_lt.mpr (hall x hxs)
      rw [if_neg h0] at hsel
      rw [hsel]

/-- Concrete instance of the zero-baseline behaviour: under the constantly
zero heuristic the selector returns absence at depth 1 on a board with
applicable moves. -/
theorem selectActionExpectimax_spec_witness :
    selectActionExpectimax evalZero ⟨⟨1,2,1,0⟩, ⟨4,1,0,0⟩, ⟨3,0,0,0⟩, ⟨0,0,0,0⟩⟩ 1 =
      none :=
  (selectActionExpectimax_spec evalZero
      ⟨⟨1,2,1,0⟩, ⟨4,1,0,0⟩, ⟨3,0,0,0⟩, ⟨0,0,0,0⟩⟩ 1 (by decide)).2.mpr
    (by
      intro a _
      simp [pureRandable, evalZero])

theorem evalPlayableLoopChk_agrees (ev : Board → ℚ) (e : ℕ)
    (IH : ∀ b c, evalRandableChk ev b e c = some (evalRandable ev b e c))
    (b : Board) :
    ∀ (acts : List Act) (best : ℚ) (c : Cache),
      evalPlayableLoopChk ev b e acts best c =
        some (evalPlayableLoop ev b e acts best c) := by
  intro acts
  induction acts with
  | nil => intro best c; simp [evalPlayableLoopChk, evalPlayableLoop]
  | cons a rest ih =>
      intro best c
      cases happ : b.apply a with
      | none => simpa [evalPlayableLoopChk, evalPlayableLoop, happ] using ih best c
      | some s =>
          have hr := IH s c
          simp [evalPlayableLoopChk, evalPlayableLoop, happ, hr]
          exact ih _ _

theorem evalPlayableChk_agrees (ev : Board → ℚ) (e : ℕ)
    (IH : ∀ b c, evalRandableChk ev b e c = some (evalRandable ev b e c))
    (b : Board) (c : Cache) :
    evalPlayableChk ev b (e + 1) c = some (evalPlayable ev b (e + 1) c) := by
  have h := evalPlayableLoopChk_agrees ev e IH b ALL_ACTIONS 0 c
  simpa [evalPlayableChk, evalPlayable] using h

theorem evalRandableLoopChk_agrees (ev : Board → ℚ) (e : ℕ)
    (IH : ∀ b c, evalRandableChk ev b e c = some (evalRandable ev b e c))
    (b : Board) :
    ∀ (succs : List (ℚ × Board)) (sum : ℚ) (c : Cache),
      evalRandableLoopChk ev b (e + 1) succs sum c =
        some (evalRandableLoop ev b (e + 1) succs sum c) := by
  intro succs
  induction succs with
  | nil => intro sum c; simp [evalRandableLoopChk, evalRandableLoop]
  | cons ps rest ih =>
      obtain ⟨p, s⟩ := ps
      intro sum c
      have hp := evalPlayableChk_agrees ev e IH s c
      simp [evalRandableLoopChk, evalRandableLoop, hp]
      exact ih _ _

theorem evalRandableChk_agrees (ev : Board → ℚ) :
    ∀ (d : ℕ) (b : Board) (c : Cache),
      evalRandableChk ev b d c = some (evalRandable ev b d c) := by
  intro d
  induction d with
  | zero =>
      intro b c
      cases hl : cLookup c b with
      | none =>
          simp [evalRandableChk, evalRandable, evalRandableMissChk,
            evalRandableMiss, hl]
      | some p =>
          obtain ⟨v, e⟩ := p
          by_cases he : e = 0
          · subst he
            simp [evalRandableChk, evalRandable, hl]
          · simp [evalRandableChk, evalRandable, evalRandableMissChk,
              evalRandableMiss, hl, he]
  | succ e ihe =>
      intro b c
      have hmiss : evalRandableMissChk ev b (e + 1) c =
          some (evalRandableMiss ev b (e + 1) c) := by
        have h := evalRandableLoopChk_agrees ev e ihe b b.randomSuccessors 0 c
        simpa [evalRandableMissChk, evalRandableMiss] using h
      cases hl : cLookup c b with
      | none => simpa [evalRandableChk, evalRandable, hl] using hmiss
      | some p =>
          obtain ⟨v, e'⟩ := p
          by_cases he : e' = e + 1
          · subst he
            simp [evalRandableChk, evalRandable, hl]
          · simpa [evalRandableChk, evalRandable, hl, he] using hmiss

theorem selectLoopChk_agrees (ev : Board → ℚ) (b : Board) (e : ℕ) :
    ∀ (acts : List Act) (ba : Option Act) (bs : ℚ) (c : Cache),
      selectLoopChk ev b (e + 1) acts ba bs c =
        some (selectLoop ev b e acts ba bs c) := by
  intro acts
  induction acts with
  | nil => intro ba bs c; simp [selectLoopChk, selectLoop]
  | cons a rest ih =>
      intro ba bs c
      cases happ : b.apply a with
      | none => simpa [selectLoopChk, selectLoop, happ] using ih ba bs c
      | some s =>
          have hr := evalRandableChk_agrees ev e s c
          by_cases hlt : bs < (evalRandable ev s e c).1
          · simp [selectLoopChk, selectLoop, happ, hr, hlt]
            exact ih _ _ _
          · simp [selectLoopChk, selectLoop, happ, hr, hlt]
            exact ih _ _ _

/-- C10: with a depth budget of at least 1, no `remaining_actions - 1`
subtraction in the search underflows — the checked model, which reports any
underflowing subtraction as `none`, agrees everywhere with the total model —
while with a depth budget of 0 on a board with an applicable action the
top-level subtraction underflows. -/
theorem checked_search_no_underflow :
    (∀ (ev : Board → ℚ) (b : Board) (d : ℕ), 1 ≤ d →
      selectActionExpectimaxChk ev b d = some (selectActionExpectimax ev b d)) ∧
      selectActionExpectimaxChk evalZero
        ⟨⟨0,0,0,1⟩, ⟨0,0,0,0⟩, ⟨0,0,0,0⟩, ⟨0,0,0,0⟩⟩ 0 = none := by
  constructor
  · intro ev b d hd
    obtain ⟨e, rfl⟩ : ∃ e, d = e + 1 := ⟨d - 1, by omega⟩
    have h := selectLoopChk_agrees ev b e ALL_ACTIONS none 0 []
    simp [selectActionExpectimaxChk, selectActionExpectimax, h]
  · have happUp : Board.apply ⟨⟨0,0,0,1⟩, ⟨0,0,0,0⟩, ⟨0,0,0,0⟩, ⟨0,0,0,0⟩⟩
        Act.Up = none := by
      simp [Board.apply, Board.moveResult, Board.transpose, Board.swapLR, Row.rev,
        Board.pushLeftB, pushRow, Row.toList, pushLeftAux, Row.ofList]
    have happDown : (Board.apply ⟨⟨0,0,0,1⟩, ⟨0,0,0,0⟩, ⟨0,0,0,0⟩, ⟨0,0,0,0⟩⟩
        Act.Down).isSome = true := by
      simp [Board.apply, Board.moveResult, Board.transpose, Board.swapLR, Row.rev,
        Board.pushLeftB, pushRow, Row.toList, pushLeftAux, Row.ofList]
    rw [selectActionExpectimaxChk]
    rw [show ALL_ACTIONS = [Act.Up, Act.Down, Act.Left, Act.Right] from rfl]
    rw [selectLoopChk, happUp]
    rw [selectLoopChk]
    cases happ2 : Board.apply ⟨⟨0,0,0,1⟩, ⟨0,0,0,0⟩, ⟨0,0,0,0⟩, ⟨0,0,0,0⟩⟩
        Act.Down with
    | none => rw [happ2] at happDown; simp at happDown
    | some s => simp

/-- Concrete instance of the no-underflow agreement at depth budget 1. -/
theorem checked_search_no_underflow_witness :
    selectActionExpectimaxChk evalZero
        ⟨⟨0,0,0,1⟩, ⟨0,0,0,0⟩, ⟨0,0,0,0⟩, ⟨0,0,0,0⟩⟩ 1 =
      some (selectActionExpectimax evalZero
        ⟨⟨0,0,0,1⟩, ⟨0,0,0,0⟩, ⟨0,0,0,0⟩, ⟨0,0,0,0⟩⟩ 1) :=
  checked_search_no_underflow.1 evalZero
    ⟨⟨0,0,0,1⟩, ⟨0,0,0,0⟩, ⟨0,0,0,0⟩, ⟨0,0,0,0⟩⟩ 1 (by decide)
